import Mathlib

/-!
Verification development for the OneDrive Cross-Account Migration CLI
(`onedrive_migrate_cli.py`).

The planner, filter evaluator, diff engine, transfer executor, resume
cache and folder-creation routine are embedded as pure Lean functions.
Network effects are made explicit:

* the source drive is a tree of `SItem`s (the result of recursively
  listing children, which the Python code performs by path);
* the target drive is a pure function from target-relative path to the
  size of the item stored there (`none` = HTTP 404);
* the executor threads an explicit state recording the in-memory
  resume-cache list, the cache file on disk, the trace of network write
  operations it performed, and the summary counters; the points where
  the Python code can raise (download, upload, move-mode deletion) are
  driven by an oracle assigning an outcome per item id;
* timestamp parsing (`datetime.fromisoformat` after the `Z` rewrite
  composed with `.replace(tzinfo=None)`) is abstracted as a function
  `parseIso : String -> Option Int` into a totally ordered time scale.
-/

namespace OneDriveCLI

/-- Python `str.lower`, restricted to the character-wise lowering Lean
provides (ASCII and the one-to-one Unicode cases). -/
def strLower (s : String) : String :=
  String.mk (s.data.map Char.toLower)

/-- Python `str.endswith`: suffix match on the character sequence. -/
def strEndsWith (s suffixOf : String) : Bool :=
  suffixOf.data.isSuffixOf s.data

/-- Split a character list at `'/'` separators. -/
def splitSlashGo (acc : List Char) : List Char → List String
  | [] => [String.mk acc.reverse]
  | c :: rest =>
      if c = '/' then String.mk acc.reverse :: splitSlashGo [] rest
      else splitSlashGo (c :: acc) rest

/-- Split a path string at `'/'` (the semantics of `str.split("/")`). -/
def splitSlash (s : String) : List String :=
  splitSlashGo [] s.data

/-- Rejoin path components with `'/'`. -/
def joinPath : List String → String
  | [] => ""
  | [p] => p
  | p :: rest => p ++ "/" ++ joinPath rest

/-- `rel_src = f"{src_rel}/{name}" if src_rel else name` (line 148). -/
def joinRel (base name : String) : String :=
  if base = "" then name else base ++ "/" ++ name

/-- `pathlib.Path(s).name`: the final path component. -/
def baseName (s : String) : String :=
  (splitSlash s).getLastD ""

/-- `str(pathlib.Path(target_root) / rel) if target_root else rel`
(lines 152 and 157): rebase a relative path under the target root. -/
def rebase (target_root rel : String) : String :=
  if target_root = "" then rel else target_root ++ "/" ++ rel

/-- `str(pathlib.Path(s).parent)` (line 190): drop the final component;
for a single-component path, `pathlib` yields `"."`. -/
def parentPath (s : String) : String :=
  let ps := splitSlash s
  if ps.length ≤ 1 then "." else joinPath ps.dropLast

/-- One source-drive entry, as returned by `list_children` with
`$select=id,name,size,folder,specialFolder,lastModifiedDateTime`.
A `folder` carries its recursively listed children (the Python code
re-fetches them by path); metadata fields the planner never reads for
folders are omitted. -/
inductive SItem where
  | file (name id : String) (size : Nat) (specialFolder : Option String)
      (lastModified : Option String)
  | folder (name : String) (specialFolder : Option String)
      (children : List SItem)

/-- `item["name"]`. -/
def sitemName : SItem → String
  | .file n _ _ _ _ => n
  | .folder n _ _ => n

/-- `item.get("specialFolder")`, reduced to its `name` field. -/
def sitemSpecial : SItem → Option String
  | .file _ _ _ sf _ => sf
  | .folder _ sf _ => sf

/-- `is_vault` (lines 79-81): special-folder tag `"vault"` or a
lower-cased name in `{"personal vault", "vault"}`. -/
def is_vault (item : SItem) : Bool :=
  (match sitemSpecial item with
   | some n => n = "vault"
   | none => false)
  || strLower (sitemName item) ∈ ["personal vault", "vault"]

mutual

/-- Number of nodes of a source item, used as a termination measure. -/
def sitemSize : SItem → Nat
  | .file _ _ _ _ _ => 1
  | .folder _ _ ch => 1 + slistSize ch

/-- Total node count of a list of source items. -/
def slistSize : List SItem → Nat
  | [] => 0
  | it :: rest => sitemSize it + slistSize rest

end

/-- The filter configuration built by `parse_filters` (lines 225-233). -/
structure Filters where
  exts : Option (List String)
  modified_after : Option Int
  min_bytes : Option Nat
  max_bytes : Option Nat

/-- `apply_filters` (lines 127-140).  `parseIso` abstracts
`datetime.datetime.fromisoformat(lm.replace("Z","+00:00")).replace(tzinfo=None)`
(`none` = the `try` block raised).  The Python truthiness test
`filters.get("modified_after") and lm` skips the date check when the
timestamp is absent or the empty string. -/
def apply_filters (parseIso : String → Option Int) (item : SItem)
    (filters : Filters) : Bool :=
  match item with
  | .folder _ _ _ => true
  | .file name _ size _ lm =>
    let extOk : Bool :=
      match filters.exts with
      | none => true
      | some es =>
          es.isEmpty || es.any (fun e => strEndsWith (strLower name) (strLower e))
    let dateOk : Bool :=
      match filters.modified_after, lm with
      | some minDt, some s =>
          if s = "" then true
          else match parseIso s with
            | some dt => decide (minDt ≤ dt)
            | none => true
      | _, _ => true
    let minOk : Bool :=
      match filters.min_bytes with
      | some m => decide (m ≤ size)
      | none => true
    let maxOk : Bool :=
      match filters.max_bytes with
      | some m => decide (size ≤ m)
      | none => true
    extOk && dateOk && minOk && maxOk

/-- `target_lookup` (lines 116-121): memoized target-side metadata fetch.
The target drive is modelled by the pure function `tgtDrive`, mapping a
target-relative path to the size of the item there (`none` = 404); the
memo is an association list keyed by the full target path. -/
def target_lookup (tgtDrive : String → Option Nat) (rel_path : String)
    (cache : List (String × Option Nat)) :
    Option Nat × List (String × Option Nat) :=
  match cache.find? (fun kv => kv.1 = rel_path) with
  | some kv => (kv.2, cache)
  | none => (tgtDrive rel_path, cache ++ [(rel_path, tgtDrive rel_path)])

/-- One entry of the plan list built by `plan_with_diff`: the dict
`{"type": ..., "source": ..., ...}` as a tagged variant. -/
inductive PAction where
  | skip_vault (source : String)
  | folder (source target : String)
  | file (source target : String) (size : Nat) (id status : String)
deriving DecidableEq

/-- The `stats` dict of `plan_with_diff` (line 143). -/
structure Stats where
  folders : Nat
  files : Nat
  bytes : Nat
  skipped_vault : Nat
  skip_existing_same : Nat
  existing_diff : Nat
  not_present : Nat
deriving DecidableEq

/-- All-zero initial statistics. -/
def initStats : Stats := ⟨0, 0, 0, 0, 0, 0, 0⟩

/-- The planner state threaded through the traversal: the plan built so
far, the statistics, and the target-lookup memo `tcache`. -/
structure PlanState where
  plan : List PAction
  stats : Stats
  tcache : List (String × Option Nat)
deriving DecidableEq

/-- Processing of one child `item` of the directory `src_rel` in the
`for item in list_children(...)` body of `plan_with_diff`
(lines 147-168).  Returns the updated state together with the queue
entries pushed by this child (the children of a non-vault subfolder). -/
def planChild (tgtDrive : String → Option Nat) (parseIso : String → Option Int)
    (target_root : String) (filters : Filters) (skip_identicals : Bool)
    (src_rel : String) (st : PlanState) (item : SItem) :
    PlanState × List (String × List SItem) :=
  let rel_src := joinRel src_rel (sitemName item)
  if is_vault item then
    let stats' := { st.stats with skipped_vault := st.stats.skipped_vault + 1 }
    ({ st with plan := st.plan ++ [.skip_vault rel_src], stats := stats' }, [])
  else
    match item with
    | .folder _ _ children =>
        let act := PAction.folder rel_src (rebase target_root (baseName rel_src))
        let stats' := { st.stats with folders := st.stats.folders + 1 }
        ({ st with plan := st.plan ++ [act], stats := stats' },
         [(rel_src, children)])
    | .file _ id size _ _ =>
        if apply_filters parseIso item filters = false then (st, [])
        else
          let rel_tgt := rebase target_root rel_src
          let lk := target_lookup tgtDrive rel_tgt st.tcache
          match lk.1 with
          | none =>
              let act := PAction.file rel_src rel_tgt size id "not_present"
              let stats' :=
                { st.stats with not_present := st.stats.not_present + 1,
                                files := st.stats.files + 1,
                                bytes := st.stats.bytes + size }
              ({ st with plan := st.plan ++ [act], stats := stats',
                         tcache := lk.2 }, [])
          | some ts =>
              if ts = size then
                let act := PAction.file rel_src rel_tgt size id "exists_same"
                let stats' :=
                  { st.stats with
                    skip_existing_same := st.stats.skip_existing_same +
                      (if skip_identicals then 1 else 0),
                    files := st.stats.files + 1,
                    bytes := st.stats.bytes + size }
                ({ st with plan := st.plan ++ [act], stats := stats',
                           tcache := lk.2 }, [])
              else
                let act := PAction.file rel_src rel_tgt size id "exists_different"
                let stats' :=
                  { st.stats with
                    existing_diff := st.stats.existing_diff + 1,
                    files := st.stats.files + 1,
                    bytes := st.stats.bytes + size }
                ({ st with plan := st.plan ++ [act], stats := stats',
                           tcache := lk.2 }, [])

/-- The whole `for item in list_children(tok_source, src_rel)` loop over
a directory listing, accumulating the queue entries in push order. -/
def planItems (tgtDrive : String → Option Nat) (parseIso : String → Option Int)
    (target_root : String) (filters : Filters) (skip_identicals : Bool)
    (src_rel : String) (st : PlanState) :
    List SItem → PlanState × List (String × List SItem)
  | [] => (st, [])
  | item :: rest =>
      let s := planChild tgtDrive parseIso target_root filters skip_identicals
        src_rel st item
      let r := planItems tgtDrive parseIso target_root filters skip_identicals
        src_rel s.1 rest
      (r.1, s.2 ++ r.2)

/-- Termination measure of a work queue: each pending directory counts
one plus the node count of its children. -/
def queueWeight : List (String × List SItem) → Nat
  | [] => 0
  | (_, items) :: rest => (1 + slistSize items) + queueWeight rest

theorem queueWeight_append (a b : List (String × List SItem)) :
    queueWeight (a ++ b) = queueWeight a + queueWeight b := by
  induction a with
  | nil => simp [queueWeight]
  | cons x rest ih =>
      cases x
      simp [queueWeight, ih]
      omega

theorem queueWeight_reverse (a : List (String × List SItem)) :
    queueWeight a.reverse = queueWeight a := by
  induction a with
  | nil => rfl
  | cons x rest ih =>
      cases x
      simp [queueWeight, List.reverse_cons, queueWeight_append, ih]
      omega

theorem planChild_file_snd (tgtDrive parseIso target_root filters
    skip_identicals src_rel st n i sz sf lm) :
    (planChild tgtDrive parseIso target_root filters
      skip_identicals src_rel st (.file n i sz sf lm)).2 = [] := by
  simp only [planChild]
  split
  · rfl
  · split
    · rfl
    · split
      · rfl
      · split <;> rfl

theorem planChild_queue_le (tgtDrive parseIso target_root filters
    skip_identicals src_rel st item) :
    queueWeight (planChild tgtDrive parseIso target_root filters
      skip_identicals src_rel st item).2 ≤ sitemSize item := by
  cases item with
  | file n i sz sf lm =>
      rw [planChild_file_snd]
      simp [queueWeight, sitemSize]
  | folder n sf ch =>
      by_cases hv : is_vault (.folder n sf ch)
      · simp [planChild, hv, queueWeight]
      · simp [planChild, hv, queueWeight, sitemSize]

theorem planItems_queue_le (tgtDrive parseIso target_root filters
    skip_identicals src_rel) (items : List SItem) :
    ∀ st, queueWeight (planItems tgtDrive parseIso target_root filters
      skip_identicals src_rel st items).2 ≤ slistSize items := by
  induction items with
  | nil => intro st; simp [planItems, queueWeight, slistSize]
  | cons item rest ih =>
      intro st
      simp only [planItems, queueWeight_append, slistSize]
      have h1 := planChild_queue_le tgtDrive parseIso target_root filters
        skip_identicals src_rel st item
      have h2 := ih (planChild tgtDrive parseIso target_root filters
        skip_identicals src_rel st item).1
      omega

/-- The `while queue:` loop of `plan_with_diff` (lines 145-168).  The
Python list-as-stack pops its last element and appends new directories
at the end; the model keeps the queue with the most recently pushed
entry first, so the pop is the head and a push prepends the reversed
new entries. -/
def planLoop (tgtDrive : String → Option Nat) (parseIso : String → Option Int)
    (target_root : String) (filters : Filters) (skip_identicals : Bool)
    (st : PlanState) (queue : List (String × List SItem)) : PlanState :=
  match queue with
  | [] => st
  | q :: rest =>
      let r := planItems tgtDrive parseIso target_root filters
        skip_identicals q.1 st q.2
      planLoop tgtDrive parseIso target_root filters skip_identicals r.1
        (r.2.reverse ++ rest)
termination_by queueWeight queue
decreasing_by
  obtain ⟨p, items⟩ := q
  simp only [queueWeight, queueWeight_append, queueWeight_reverse]
  have := planItems_queue_le tgtDrive parseIso target_root filters
    skip_identicals p items st
  omega

/-- `plan_with_diff` (lines 142-169).  The source drive is given as the
recursively listed children of `source_root`. -/
def plan_with_diff (tgtDrive : String → Option Nat)
    (parseIso : String → Option Int) (source_root target_root : String)
    (rootItems : List SItem) (filters : Filters) (skip_identicals : Bool) :
    List PAction × Stats :=
  let st := planLoop tgtDrive parseIso target_root filters skip_identicals
    ⟨[], initStats, []⟩ [(source_root, rootItems)]
  (st.plan, st.stats)

/-! ### Folder creation (`ensure_folder`, lines 83-92)

The target drive is modelled as the list of paths (component lists) at
which an item exists.  The `GET /me/drive/root:/{current}` existence
probe is membership; the `POST /me/drive/root/children` create call adds
a child *of the drive root* — that is what the code does, the request
URL never mentions the ancestor prefix.  The configured
`@microsoft.graph.conflictBehavior` is `rename` by default; the service
then materializes a fresh sibling name, modelled here by an arbitrary
suffix (its exact spelling is service-chosen and never relevant
below). -/

/-- `[p for p in pathlib.Path(rel_path).parts if p not in ["", "/"]]`. -/
def splitParts (rel_path : String) : List String :=
  (splitSlash rel_path).filter (fun p => !(p == "" || p == "/"))

/-- The `POST {GRAPH}/me/drive/root/children` call of line 92: create a
folder named `p` as a direct child of the drive root. -/
def createAtRoot (drive : List (List String)) (p : String) :
    List (List String) :=
  if [p] ∈ drive then drive ++ [[p ++ " 1"]] else drive ++ [[p]]

/-- The `for p in parts` loop of `ensure_folder`: probe each prefix
`current`, and on a 404 create the component at the drive root. -/
def ensure_folder_go (drive : List (List String)) (current : List String) :
    List String → List (List String)
  | [] => drive
  | p :: rest =>
      let current' := current ++ [p]
      if current' ∈ drive then ensure_folder_go drive current' rest
      else ensure_folder_go (createAtRoot drive p) current' rest

/-- `ensure_folder` (lines 83-92), as a transformer of the target
drive. -/
def ensure_folder (drive : List (List String)) (rel_path : String) :
    List (List String) :=
  if rel_path = "" then drive
  else ensure_folder_go drive [] (splitParts rel_path)

/-! ### Chunked upload (`upload_large`, lines 105-114)

The reader together with the service responses is a list of pairs
`(chunk length, HTTP status of the PUT for that chunk)`. -/

/-- Result of `upload_large`: `completed` is a normal (`None`) return of
the Python function, `error` is a raised `RuntimeError`. -/
inductive UploadResult where
  | completed
  | error (code : Nat)
deriving DecidableEq

/-- The `for chunk in reader` loop of `upload_large`, tracking the
running offset `start` used for the `Content-Range` header. -/
def upload_large_go : List (Nat × Nat) → Nat → UploadResult
  | [], _ => .completed
  | (L, code) :: rest, start =>
      if code = 200 ∨ code = 201 then .completed
      else if code = 202 then upload_large_go rest (start + L)
      else .error code

/-- `upload_large` (lines 105-114).  `file_size` only feeds the
`Content-Range` header and never influences control flow. -/
def upload_large (file_size : Nat) (chunks : List (Nat × Nat)) :
    UploadResult :=
  upload_large_go chunks 0

/-! ### The executor (`execute`, lines 180-201)

Network write effects are recorded as a trace; the points where the
Python code raises (download, upload, move-mode delete) are driven by an
oracle keyed on the item id, and a raise is an `Except.error` carrying
the state at the moment of the raise. -/

/-- Outcome the environment assigns to the transfer of one item id. -/
inductive TransferOutcome where
  | ok
  | downloadFails
  | uploadFails
  | deleteFails
deriving DecidableEq

/-- One remote side effect performed by the executor. -/
inductive NetOp where
  | ensure (path : String)
  | download (id : String)
  | uploadSmall (target : String)
  | uploadLarge (target : String)
  | delete (id : String)
deriving DecidableEq

/-- Executor state: the in-memory `cache["processed_ids"]` list, the
resume-cache file on disk (`none` = absent), the trace of remote write
operations, and the `summary` counters. -/
structure ExecState where
  processedIds : List String
  disk : Option (List String)
  ops : List NetOp
  files_copied : Nat
  bytes_copied : Nat
  deleted : Nat
  folders_created : Nat
  skipped_identical : Nat
  skipped_vault : Nat
deriving DecidableEq

/-- `load_cache` (lines 171-174): the `processed_ids` list read from the
cache file; missing path, missing file and unparsable file all yield the
empty list. -/
def load_cache (cache_path : Option String) (disk : Option (List String)) :
    List String :=
  match cache_path with
  | none => []
  | some _ => match disk with
    | none => []
    | some ids => ids

/-- `save_cache` (lines 176-178): write the in-memory list to the cache
file, a no-op when no cache path is configured. -/
def save_cache (cache_path : Option String) (st : ExecState) : ExecState :=
  match cache_path with
  | none => st
  | some _ => { st with disk := some st.processedIds }

/-- One iteration of the `for a in plan` loop of `execute`
(lines 183-200). -/
def execStep (mode : String) (skip_identicals : Bool)
    (cache_path : Option String) (oracle : String → TransferOutcome)
    (processed : List String) (st : ExecState) :
    PAction → Except ExecState ExecState
  | .skip_vault _ =>
      .ok { st with skipped_vault := st.skipped_vault + 1 }
  | .folder _ target =>
      .ok { st with ops := st.ops ++ [.ensure target],
                    folders_created := st.folders_created + 1 }
  | .file _ target size id status =>
      if id ∈ processed then .ok st
      else if skip_identicals ∧ status = "exists_same" then
        .ok (save_cache cache_path
          { st with skipped_identical := st.skipped_identical + 1,
                    processedIds := st.processedIds ++ [id] })
      else
        let st1 := { st with ops := st.ops ++ [.ensure (parentPath target)] }
        if oracle id = .downloadFails then .error st1
        else
          let st2 := { st1 with ops := st1.ops ++ [.download id] }
          if oracle id = .uploadFails then .error st2
          else
            let upOp := if size < 4 * 1024 * 1024 then NetOp.uploadSmall target
              else NetOp.uploadLarge target
            let st3 := { st2 with ops := st2.ops ++ [upOp],
                                  files_copied := st2.files_copied + 1,
                                  bytes_copied := st2.bytes_copied + size }
            if mode = "move" then
              if oracle id = .deleteFails then .error st3
              else
                let st4 := { st3 with ops := st3.ops ++ [NetOp.delete id],
                                      deleted := st3.deleted + 1 }
                .ok (save_cache cache_path
                  { st4 with processedIds := st4.processedIds ++ [id] })
            else
              .ok (save_cache cache_path
                { st3 with processedIds := st3.processedIds ++ [id] })

/-- The `for a in plan` loop, aborting on the first raise. -/
def execGo (mode : String) (skip_identicals : Bool)
    (cache_path : Option String) (oracle : String → TransferOutcome)
    (processed : List String) :
    ExecState → List PAction → Except ExecState ExecState
  | st, [] => .ok st
  | st, a :: rest =>
      match execStep mode skip_identicals cache_path oracle processed st a with
      | .error e => .error e
      | .ok st' => execGo mode skip_identicals cache_path oracle processed
          st' rest

/-- Initial executor state at line 181-182: load the cache, seed the
in-memory list with it, zero counters, empty trace. -/
def initState (cache_path : Option String) (disk : Option (List String)) :
    ExecState :=
  { processedIds := load_cache cache_path disk, disk := disk, ops := [],
    files_copied := 0, bytes_copied := 0, deleted := 0, folders_created := 0,
    skipped_identical := 0, skipped_vault := 0 }

/-- `execute` (lines 180-201). -/
def execute (plan : List PAction) (mode : String) (skip_identicals : Bool)
    (cache_path : Option String) (disk : Option (List String))
    (oracle : String → TransferOutcome) : Except ExecState ExecState :=
  execGo mode skip_identicals cache_path oracle (load_cache cache_path disk)
    (initState cache_path disk) plan

/-! ### Vault-free reachability

`cleanPathsList base items` collects the source-relative paths of every
item reachable from the listing `items` of directory `base` without
entering a vault item; `cleanDirsList` collects the reachable non-vault
directories together with their listings. -/

mutual

/-- Paths contributed by one child of `base`, never entering vaults. -/
def cleanPathsItem (base : String) (it : SItem) : List String :=
  if is_vault it then []
  else match it with
    | .file name _ _ _ _ => [joinRel base name]
    | .folder name _ ch =>
        joinRel base name :: cleanPathsList (joinRel base name) ch

/-- Paths of all items reachable from the listing of `base` without
entering a vault item. -/
def cleanPathsList (base : String) : List SItem → List String
  | [] => []
  | it :: rest => cleanPathsItem base it ++ cleanPathsList base rest

end

mutual

/-- Non-vault directories reachable through one child of `base`. -/
def cleanDirsItem (base : String) (it : SItem) :
    List (String × List SItem) :=
  if is_vault it then []
  else match it with
    | .file _ _ _ _ _ => []
    | .folder name _ ch =>
        (joinRel base name, ch) :: cleanDirsList (joinRel base name) ch

/-- Non-vault directories reachable from the listing of `base`. -/
def cleanDirsList (base : String) : List SItem → List (String × List SItem)
  | [] => []
  | it :: rest => cleanDirsItem base it ++ cleanDirsList base rest

end

/-- All directories the traversal may legitimately list: the root
listing itself plus every non-vault directory reachable beneath it. -/
def cleanDirs (source_root : String) (rootItems : List SItem) :
    List (String × List SItem) :=
  (source_root, rootItems) :: cleanDirsList source_root rootItems

/-- The `source` field of a plan entry. -/
def planSource : PAction → String
  | .skip_vault s => s
  | .folder s _ => s
  | .file s _ _ _ _ => s

/-- Whether a plan entry is a `skip_vault` marker. -/
def isSkipVault : PAction → Bool
  | .skip_vault _ => true
  | _ => false

/-- Number of `file` entries of a plan whose recorded diff status is
`status`. -/
def countStatus (status : String) : List PAction → Nat
  | [] => 0
  | .file _ _ _ _ st :: rest =>
      (if st = status then 1 else 0) + countStatus status rest
  | _ :: rest => countStatus status rest

/-- Number of `file` entries of a plan. -/
def countFiles : List PAction → Nat
  | [] => 0
  | .file _ _ _ _ _ :: rest => 1 + countFiles rest
  | _ :: rest => countFiles rest

/-- Total size of the `file` entries of a plan. -/
def sumFileSizes : List PAction → Nat
  | [] => 0
  | .file _ _ sz _ _ :: rest => sz + sumFileSizes rest
  | _ :: rest => sumFileSizes rest

/-- Environment in which every download, upload and deletion succeeds. -/
def okOracle : String → TransferOutcome := fun _ => .ok

/-!
## Claims

Each claim of the specification review is settled by exactly one theorem
below, in claim order.
-/

/-- Claim C1 (code bug).  On the target drive that has a folder `a` and
nothing else, `ensure_folder "a/b"` probes `a` (present) and `a/b`
(absent, a 404), and then creates the missing component `b` as a child
of the *drive root* — the `POST` of line 92 always targets the
drive-root children collection — so afterwards the drive holds `a` and
a top-level `b`, and the nested folder `a/b` still does not exist,
contrary to the claim that the missing folder is created at exactly its
nested path. -/
theorem ensure_folder_creates_missing_component_at_root :
    ensure_folder [["a"]] "a/b" = [["a"], ["b"]] ∧
      (["a", "b"] ∈ ensure_folder [["a"]] "a/b") = False := by
  constructor
  · rfl
  · decide

/-- Claim C3 (code bug).  `upload_large` with a single 5-byte chunk whose
`PUT` response is 202 ("more expected"): the reader is then exhausted,
the `for chunk in reader` loop falls through, and the function returns
normally — reporting success even though no chunk response ever carried
the 200/201 "upload finalized" status, contrary to the claim. -/
theorem upload_large_success_without_finalized_response :
    upload_large 5 [(5, 202)] = .completed := rfl

/-- Claim C2 (counterexample).  With empty source and target roots and a
source tree `a/b` (folder `b` nested inside folder `a`), the plan emits
the folder action for source `a/b` with target `"b"` — only the folder
base name, computed by line 152 from `pathlib.Path(rel_src).name` — and
not the full relative path `"a/b"` the claim requires. -/
theorem plan_folder_target_is_base_name_only :
    (plan_with_diff (fun _ => none) (fun _ => none) "" ""
        [.folder "a" none [.folder "b" none []]]
        ⟨none, none, none, none⟩ false).1 =
      [.folder "a" "a", .folder "a/b" "b"] ∧
      "b" ≠ rebase "" "a/b" := by
  constructor
  · simp +decide [plan_with_diff, planLoop, planItems, planChild, is_vault,
      sitemName, sitemSpecial, joinRel, baseName, rebase, initStats, strLower,
      splitSlash, splitSlashGo]
  · decide

/-- Splitting the executor loop at a plan decomposition. -/
theorem execGo_append (mode : String) (skip_identicals : Bool)
    (cache_path : Option String) (oracle : String → TransferOutcome)
    (processed : List String) (pre rest : List PAction) :
    ∀ st, execGo mode skip_identicals cache_path oracle processed st
        (pre ++ rest) =
      match execGo mode skip_identicals cache_path oracle processed st pre with
      | .error e => .error e
      | .ok st' =>
          execGo mode skip_identicals cache_path oracle processed st' rest := by
  induction pre with
  | nil => intro st; simp [execGo]
  | cons a pre ih =>
      intro st
      simp only [List.cons_append, execGo]
      rcases execStep mode skip_identicals cache_path oracle processed st a
        with e | st'
      · rfl
      · exact ih st'

/-- Claim C9.  A `file` action whose id is in the loaded resume cache is
dropped by the `continue` of line 187 before the identical-skip check,
the folder ensure, and the transfer itself: executing a plan containing
it is literally the same computation as executing the plan without it,
for every mode, skip-identicals setting, diff status (including
`exists_different`) and environment — so nothing is re-transferred and
no summary counter moves on its account. -/
theorem execute_drops_file_actions_already_in_cache (mode : String)
    (skip_identicals : Bool) (cache_path : Option String)
    (disk : Option (List String)) (oracle : String → TransferOutcome)
    (pre post : List PAction) (src tgt : String) (size : Nat)
    (id status : String) (h : id ∈ load_cache cache_path disk) :
    execute (pre ++ .file src tgt size id status :: post) mode
        skip_identicals cache_path disk oracle =
      execute (pre ++ post) mode skip_identicals cache_path disk oracle := by
  unfold execute
  rw [execGo_append, execGo_append]
  rcases execGo mode skip_identicals cache_path oracle
      (load_cache cache_path disk) (initState cache_path disk) pre
    with e | st'
  · rfl
  · simp only [execGo, execStep, if_pos h]

/-- Witness for C9: a plan of one cached file action and one uncached
one, on a concrete cache file. -/
theorem execute_drops_file_actions_already_in_cache_witness :
    execute ([.folder "d" "d"] ++
        .file "d/a.txt" "d/a.txt" 10 "id1" "exists_different" ::
          [.file "d/b.txt" "d/b.txt" 7 "id2" "not_present"]) "move" true
        (some "cache.json") (some ["id1"]) okOracle =
      execute ([.folder "d" "d"] ++
          [.file "d/b.txt" "d/b.txt" 7 "id2" "not_present"]) "move" true
        (some "cache.json") (some ["id1"]) okOracle :=
  execute_drops_file_actions_already_in_cache "move" true (some "cache.json")
    (some ["id1"]) okOracle [.folder "d" "d"]
    [.file "d/b.txt" "d/b.txt" 7 "id2" "not_present"] "d/a.txt" "d/a.txt" 10
    "id1" "exists_different" (by decide)

/-- A raising `execStep` never reaches the cache append of line 200:
the error state carries the same in-memory list and the same on-disk
cache file as the state the action started from. -/
theorem execStep_error_preserves_cache (mode : String)
    (skip_identicals : Bool) (cache_path : Option String)
    (oracle : String → TransferOutcome) (processed : List String)
    (st e : ExecState) (a : PAction)
    (h : execStep mode skip_identicals cache_path oracle processed st a =
      .error e) :
    e.disk = st.disk ∧ e.processedIds = st.processedIds := by
  cases a with
  | skip_vault s => simp [execStep] at h
  | folder s t => simp [execStep] at h
  | file s t sz id status =>
      simp only [execStep] at h
      split at h
      · simp at h
      · split at h
        · simp at h
        · split at h
          · cases h; exact ⟨rfl, rfl⟩
          · split at h
            · cases h; exact ⟨rfl, rfl⟩
            · split at h
              · split at h
                · cases h; exact ⟨rfl, rfl⟩
                · simp at h
              · simp at h

/-- Claim C4.  If the plan decomposes as `pre ++ [a] ++ post` where the
prefix `pre` executes without a raise, and the file action `a` is
neither cache-skipped nor identical-skipped but its download, upload, or
(in move mode) deletion raises, then `execute` propagates the error, and
the error state carries exactly the on-disk resume cache — and the
in-memory processed list — that the completed prefix had established:
the failing item id was never appended. -/
theorem execute_failure_preserves_prior_cache (mode : String)
    (skip_identicals : Bool) (cache_path : Option String)
    (oracle : String → TransferOutcome) (disk : Option (List String))
    (pre post : List PAction) (src tgt : String) (size : Nat)
    (id status : String) (st1 : ExecState)
    (h1 : execGo mode skip_identicals cache_path oracle
      (load_cache cache_path disk) (initState cache_path disk) pre = .ok st1)
    (h2 : id ∉ load_cache cache_path disk)
    (h3 : ¬(skip_identicals = true ∧ status = "exists_same"))
    (h4 : oracle id = .downloadFails ∨ oracle id = .uploadFails ∨
      (oracle id = .deleteFails ∧ mode = "move")) :
    ∃ st2, execute (pre ++ .file src tgt size id status :: post) mode
        skip_identicals cache_path disk oracle = .error st2 ∧
      st2.disk = st1.disk ∧ st2.processedIds = st1.processedIds := by
  unfold execute
  rw [execGo_append, h1]
  have hstep : ∃ e, execStep mode skip_identicals cache_path oracle
      (load_cache cache_path disk) st1 (.file src tgt size id status) =
        .error e := by
    simp only [execStep, if_neg h2, if_neg h3]
    rcases h4 with h | h | ⟨h, hm⟩
    · exact ⟨_, by rw [if_pos h]⟩
    · have hd : ¬(oracle id = .downloadFails) := by rw [h]; simp
      exact ⟨_, by rw [if_neg hd, if_pos h]⟩
    · have hd : ¬(oracle id = .downloadFails) := by rw [h]; simp
      have hu : ¬(oracle id = .uploadFails) := by rw [h]; simp
      exact ⟨_, by rw [if_neg hd, if_neg hu, if_pos hm, if_pos h]⟩
  obtain ⟨e, he⟩ := hstep
  refine ⟨e, ?_, ?_, ?_⟩
  · simp only [execGo, he]
  · exact (execStep_error_preserves_cache _ _ _ _ _ _ _ _ he).1.trans rfl
  · exact (execStep_error_preserves_cache _ _ _ _ _ _ _ _ he).2.trans rfl

/-- Witness for C4: a one-action plan whose upload raises, on a cache
file already holding an unrelated id; the error state keeps that cache
intact. -/
theorem execute_failure_preserves_prior_cache_witness :
    ∃ st2, execute ([] ++ .file "a.txt" "t/a.txt" 10 "id1" "not_present" ::
        []) "copy" false (some "cache.json") (some ["other"])
        (fun _ => .uploadFails) = .error st2 ∧
      st2.disk = (initState (some "cache.json") (some ["other"])).disk ∧
      st2.processedIds =
        (initState (some "cache.json") (some ["other"])).processedIds :=
  execute_failure_preserves_prior_cache "copy" false (some "cache.json")
    (fun _ => .uploadFails) (some ["other"]) [] [] "a.txt" "t/a.txt" 10 "id1"
    "not_present" (initState (some "cache.json") (some ["other"])) rfl
    (by decide) (by decide) (Or.inr (Or.inl rfl))

/-- When every transfer succeeds and a cache path is configured, the
executor loop completes, keeps the on-disk cache equal to the in-memory
list from the first write onwards, only ever grows the in-memory list,
and ends with every file-action id of the plan in that list. -/
theorem execGo_okOracle_completes (mode : String) (skip_identicals : Bool)
    (p : String) (d0 : Option (List String)) :
    ∀ (plan : List PAction) (st : ExecState),
      (st.disk = some st.processedIds ∨
        (st.disk = d0 ∧ st.processedIds = load_cache (some p) d0)) →
      (∀ x ∈ load_cache (some p) d0, x ∈ st.processedIds) →
      ∃ st', execGo mode skip_identicals (some p) okOracle
          (load_cache (some p) d0) st plan = .ok st' ∧
        (st'.disk = some st'.processedIds ∨
          (st'.disk = d0 ∧ st'.processedIds = load_cache (some p) d0)) ∧
        (∀ x ∈ st.processedIds, x ∈ st'.processedIds) ∧
        (∀ a ∈ plan, ∀ s t sz id status, a = .file s t sz id status →
          id ∈ st'.processedIds) := by
  intro plan
  induction plan with
  | nil =>
      intro st hInv hsub
      exact ⟨st, rfl, hInv, fun x hx => hx, by simp⟩
  | cons a rest ih =>
      intro st hInv hsub
      cases a with
      | skip_vault s =>
          obtain ⟨st', h1, h2, h3, h4⟩ :=
            ih { st with skipped_vault := st.skipped_vault + 1 } hInv hsub
          refine ⟨st', ?_, h2, h3, ?_⟩
          · simp only [execGo, execStep]; exact h1
          · intro a ha
            rcases List.mem_cons.mp ha with rfl | ha
            · intro s t sz id status h; cases h
            · exact h4 a ha
      | folder s t =>
          obtain ⟨st', h1, h2, h3, h4⟩ :=
            ih { st with ops := st.ops ++ [.ensure t],
                         folders_created := st.folders_created + 1 } hInv hsub
          refine ⟨st', ?_, h2, h3, ?_⟩
          · simp only [execGo, execStep]; exact h1
          · intro a ha
            rcases List.mem_cons.mp ha with rfl | ha
            · intro s' t' sz id status h; cases h
            · exact h4 a ha
      | file s t sz id status =>
          by_cases hmem : id ∈ load_cache (some p) d0
          · obtain ⟨st', h1, h2, h3, h4⟩ := ih st hInv hsub
            refine ⟨st', ?_, h2, h3, ?_⟩
            · simp only [execGo, execStep, if_pos hmem]; exact h1
            · intro a ha
              rcases List.mem_cons.mp ha with rfl | ha
              · intro s' t' sz' id' status' h
                cases h
                exact h3 id (hsub id hmem)
              · exact h4 a ha
          · by_cases hskip : skip_identicals = true ∧ status = "exists_same"
            · set stNew : ExecState := save_cache (some p)
                { st with skipped_identical := st.skipped_identical + 1,
                          processedIds := st.processedIds ++ [id] } with hstNew
              have hNewInv : stNew.disk = some stNew.processedIds ∨
                  (stNew.disk = d0 ∧
                    stNew.processedIds = load_cache (some p) d0) :=
                Or.inl rfl
              have hNewSub : ∀ x ∈ load_cache (some p) d0,
                  x ∈ stNew.processedIds := by
                intro x hx
                exact List.mem_append_left _ (hsub x hx)
              obtain ⟨st', h1, h2, h3, h4⟩ := ih stNew hNewInv hNewSub
              refine ⟨st', ?_, h2, ?_, ?_⟩
              · simp only [execGo, execStep, if_neg hmem, if_pos hskip]
                exact h1
              · intro x hx
                exact h3 x (List.mem_append_left _ hx)
              · intro a ha
                rcases List.mem_cons.mp ha with rfl | ha
                · intro s' t' sz' id' status' h
                  cases h
                  exact h3 id (List.mem_append_right _ (by simp))
                · exact h4 a ha
            · have hok : okOracle id = .ok := rfl
              by_cases hmode : mode = "move"
              · set st3 : ExecState :=
                  { st with
                    ops := (st.ops ++ [.ensure (parentPath t)]) ++
                      [.download id] ++
                      [if sz < 4 * 1024 * 1024 then NetOp.uploadSmall t
                        else NetOp.uploadLarge t],
                    files_copied := st.files_copied + 1,
                    bytes_copied := st.bytes_copied + sz } with hst3
                set stNew : ExecState := save_cache (some p)
                  { st3 with ops := st3.ops ++ [NetOp.delete id],
                             deleted := st3.deleted + 1,
                             processedIds := st3.processedIds ++ [id] }
                  with hstNew
                have hNewSub : ∀ x ∈ load_cache (some p) d0,
                    x ∈ stNew.processedIds := by
                  intro x hx
                  exact List.mem_append_left _ (hsub x hx)
                obtain ⟨st', h1, h2, h3, h4⟩ := ih stNew (Or.inl rfl) hNewSub
                refine ⟨st', ?_, h2, ?_, ?_⟩
                · simp only [execGo, execStep, if_neg hmem, if_neg hskip,
                    hok, if_pos hmode]
                  exact h1
                · intro x hx
                  exact h3 x (List.mem_append_left _ hx)
                · intro a ha
                  rcases List.mem_cons.mp ha with rfl | ha
                  · intro s' t' sz' id' status' h
                    cases h
                    exact h3 id (List.mem_append_right _ (by simp))
                  · exact h4 a ha
              · set st3 : ExecState :=
                  { st with
                    ops := (st.ops ++ [.ensure (parentPath t)]) ++
                      [.download id] ++
                      [if sz < 4 * 1024 * 1024 then NetOp.uploadSmall t
                        else NetOp.uploadLarge t],
                    files_copied := st.files_copied + 1,
                    bytes_copied := st.bytes_copied + sz } with hst3
                set stNew : ExecState := save_cache (some p)
                  { st3 with processedIds := st3.processedIds ++ [id] }
                  with hstNew
                have hNewSub : ∀ x ∈ load_cache (some p) d0,
                    x ∈ stNew.processedIds := by
                  intro x hx
                  exact List.mem_append_left _ (hsub x hx)
                obtain ⟨st', h1, h2, h3, h4⟩ := ih stNew (Or.inl rfl) hNewSub
                refine ⟨st', ?_, h2, ?_, ?_⟩
                · simp only [execGo, execStep, if_neg hmem, if_neg hskip,
                    hok, if_neg hmode]
                  exact h1
                · intro x hx
                  exact h3 x (List.mem_append_left _ hx)
                · intro a ha
                  rcases List.mem_cons.mp ha with rfl | ha
                  · intro s' t' sz' id' status' h
                    cases h
                    exact h3 id (List.mem_append_right _ (by simp))
                  · exact h4 a ha

/-- When every file action of the plan is already in the processed set,
the executor only performs folder-ensure operations. -/
theorem execGo_all_cached_only_ensures (mode : String)
    (skip_identicals : Bool) (cache_path : Option String)
    (oracle : String → TransferOutcome) :
    ∀ (plan : List PAction) (processed : List String) (st : ExecState),
      (∀ a ∈ plan, ∀ s t sz id status, a = .file s t sz id status →
        id ∈ processed) →
      (∀ op ∈ st.ops, ∃ q, op = NetOp.ensure q) →
      ∃ st', execGo mode skip_identicals cache_path oracle processed st
          plan = .ok st' ∧
        ∀ op ∈ st'.ops, ∃ q, op = NetOp.ensure q := by
  intro plan
  induction plan with
  | nil => intro processed st _ hops; exact ⟨st, rfl, hops⟩
  | cons a rest ih =>
      intro processed st hids hops
      cases a with
      | skip_vault s =>
          obtain ⟨st', h1, h2⟩ :=
            ih processed { st with skipped_vault := st.skipped_vault + 1 }
              (fun a ha => hids a (List.mem_cons_of_mem _ ha)) hops
          exact ⟨st', by simp only [execGo, execStep]; exact h1, h2⟩
      | folder s t =>
          obtain ⟨st', h1, h2⟩ :=
            ih processed
              { st with ops := st.ops ++ [.ensure t],
                        folders_created := st.folders_created + 1 }
              (fun a ha => hids a (List.mem_cons_of_mem _ ha))
              (by
                intro op hop
                rcases List.mem_append.mp hop with hop | hop
                · exact hops op hop
                · simp at hop
                  exact ⟨t, hop⟩)
          exact ⟨st', by simp only [execGo, execStep]; exact h1, h2⟩
      | file s t sz id status =>
          have hmem : id ∈ processed :=
            hids _ (List.mem_cons_self _ _) s t sz id status rfl
          obtain ⟨st', h1, h2⟩ := ih processed st
            (fun a ha => hids a (List.mem_cons_of_mem _ ha)) hops
          exact ⟨st',
            by simp only [execGo, execStep, if_pos hmem]; exact h1, h2⟩

/-- Claim C5.  With a cache path configured and every transfer
succeeding, a first `execute` of a plan completes; afterwards every
file action has its item id in the `processed_ids` list that
`load_cache` reads back from the cache file it left on disk; and a
second `execute` of the same plan against that file — under an
arbitrary environment — completes while performing only folder-ensure
operations: zero downloads, zero uploads, zero deletions. -/
theorem execute_checkpoints_and_resumes (mode : String)
    (skip_identicals : Bool) (p : String) (disk0 : Option (List String))
    (plan : List PAction) (oracle2 : String → TransferOutcome) :
    ∃ st1 st2,
      execute plan mode skip_identicals (some p) disk0 okOracle = .ok st1 ∧
      (∀ a ∈ plan, ∀ s t sz id status, a = .file s t sz id status →
        id ∈ load_cache (some p) st1.disk) ∧
      execute plan mode skip_identicals (some p) st1.disk oracle2 =
        .ok st2 ∧
      (∀ op ∈ st2.ops, ∃ q, op = NetOp.ensure q) := by
  obtain ⟨st1, h1, hInv, _, hids⟩ :=
    execGo_okOracle_completes mode skip_identicals p disk0 plan
      (initState (some p) disk0) (Or.inr ⟨rfl, rfl⟩) (fun x hx => hx)
  have hloaded : ∀ a ∈ plan, ∀ s t sz id status,
      a = .file s t sz id status → id ∈ load_cache (some p) st1.disk := by
    intro a ha s t sz id status heq
    have hid := hids a ha s t sz id status heq
    rcases hInv with hdisk | ⟨hdisk, hpids⟩
    · rw [hdisk]; exact hid
    · rw [hdisk]; rw [hpids] at hid; exact hid
  obtain ⟨st2, h2, hops⟩ :=
    execGo_all_cached_only_ensures mode skip_identicals (some p) oracle2 plan
      (load_cache (some p) st1.disk) (initState (some p) st1.disk) hloaded
      (by intro op hop; simp [initState] at hop)
  exact ⟨st1, st2, h1, hloaded, h2, hops⟩

/-- Witness for C5 at a concrete two-action plan with no pre-existing
cache file. -/
theorem execute_checkpoints_and_resumes_witness :
    ∃ st1 st2,
      execute [.folder "d" "d", .file "d/a.txt" "d/a.txt" 10 "id1"
          "not_present"] "copy" false (some "cache.json") none okOracle =
        .ok st1 ∧
      (∀ a ∈ [PAction.folder "d" "d",
          .file "d/a.txt" "d/a.txt" 10 "id1" "not_present"],
        ∀ s t sz id status, a = .file s t sz id status →
          id ∈ load_cache (some "cache.json") st1.disk) ∧
      execute [.folder "d" "d", .file "d/a.txt" "d/a.txt" 10 "id1"
          "not_present"] "copy" false (some "cache.json") st1.disk
          (fun _ => .downloadFails) = .ok st2 ∧
      (∀ op ∈ st2.ops, ∃ q, op = NetOp.ensure q) :=
  execute_checkpoints_and_resumes "copy" false "cache.json" none
    [.folder "d" "d", .file "d/a.txt" "d/a.txt" 10 "id1" "not_present"]
    (fun _ => .downloadFails)

/-- Master invariant for the planner loop: a state property `P` and a
queue-entry property `Q`, with `Q`-directories processed from `P`-states
yielding `P`-states and `Q`-entries, survive the whole traversal. -/
theorem planLoop_inv (tgtDrive : String → Option Nat)
    (parseIso : String → Option Int) (target_root : String)
    (filters : Filters) (skip_identicals : Bool)
    (P : PlanState → Prop) (Q : String × List SItem → Prop)
    (hstep : ∀ src_rel items st, Q (src_rel, items) → P st →
      P (planItems tgtDrive parseIso target_root filters skip_identicals
          src_rel st items).1 ∧
      ∀ qe ∈ (planItems tgtDrive parseIso target_root filters
          skip_identicals src_rel st items).2, Q qe) :
    ∀ (st : PlanState) (queue : List (String × List SItem)), P st →
      (∀ qe ∈ queue, Q qe) →
      P (planLoop tgtDrive parseIso target_root filters skip_identicals
          st queue) := by
  intro st queue
  induction st, queue using planLoop.induct tgtDrive parseIso target_root
    filters skip_identicals with
  | case1 st => intro hP _; rw [planLoop]; exact hP
  | case2 st q rest r ih =>
      intro hP hQ
      obtain ⟨hP', hQnew⟩ :=
        hstep q.1 q.2 st (hQ q (List.mem_cons_self _ _)) hP
      rw [planLoop]
      exact ih hP' (by
        intro qe hqe
        rcases List.mem_append.mp hqe with hqe | hqe
        · exact hQnew qe (List.mem_reverse.mp hqe)
        · exact hQ qe (List.mem_cons_of_mem _ hqe))

/-- Shape of the plan after one `planChild` step: unchanged (filtered
file), or extended by exactly one action whose `source` is the relative
path of the child; folder and file targets take the line-152/line-157
forms, and the recorded status of a file is one of the three diff
classifications. -/
theorem planChild_plan_cases (tgtDrive : String → Option Nat)
    (parseIso : String → Option Int) (target_root : String)
    (filters : Filters) (skip_identicals : Bool) (src_rel : String)
    (st : PlanState) (item : SItem) :
    (planChild tgtDrive parseIso target_root filters skip_identicals
        src_rel st item).1.plan = st.plan ∨
    (is_vault item = true ∧
      (planChild tgtDrive parseIso target_root filters skip_identicals
          src_rel st item).1.plan =
        st.plan ++ [.skip_vault (joinRel src_rel (sitemName item))]) ∨
    (is_vault item = false ∧
      (planChild tgtDrive parseIso target_root filters skip_identicals
          src_rel st item).1.plan =
        st.plan ++ [.folder (joinRel src_rel (sitemName item))
          (rebase target_root (baseName (joinRel src_rel
            (sitemName item))))]) ∨
    (is_vault item = false ∧ ∃ sz id status,
      status ∈ ["not_present", "exists_same", "exists_different"] ∧
      (planChild tgtDrive parseIso target_root filters skip_identicals
          src_rel st item).1.plan =
        st.plan ++ [.file (joinRel src_rel (sitemName item))
          (rebase target_root (joinRel src_rel (sitemName item)))
          sz id status]) := by
  by_cases hv : is_vault item = true
  · refine Or.inr (Or.inl ⟨hv, ?_⟩)
    simp [planChild, hv]
  · have hv' : is_vault item = false := by simpa using hv
    cases item with
    | folder n sf ch =>
        refine Or.inr (Or.inr (Or.inl ⟨hv', ?_⟩))
        simp [planChild, hv']
    | file n i sz sf lm =>
        by_cases hf : apply_filters parseIso (.file n i sz sf lm) filters =
          false
        · left
          simp [planChild, hv', hf]
        · refine Or.inr (Or.inr (Or.inr ⟨hv', ?_⟩))
          simp only [planChild, hv', Bool.false_eq_true, if_neg, if_false,
            hf]
          rcases hlk : (target_lookup tgtDrive
              (rebase target_root (joinRel src_rel
                (sitemName (.file n i sz sf lm)))) st.tcache).1
            with _ | ts
          · exact ⟨sz, i, "not_present", by simp, by
              simp [planChild, hv', hf, hlk]⟩
          · by_cases hts : ts = sz
            · exact ⟨sz, i, "exists_same", by simp, by
                simp [planChild, hv', hf, hlk, hts]⟩
            · exact ⟨sz, i, "exists_different", by simp, by
                simp [planChild, hv', hf, hlk, hts]⟩

/-- Shape of the queue entries pushed by one `planChild` step: none, or
— for a non-vault subfolder — exactly its own listing keyed by its
relative path. -/
theorem planChild_queue_cases (tgtDrive : String → Option Nat)
    (parseIso : String → Option Int) (target_root : String)
    (filters : Filters) (skip_identicals : Bool) (src_rel : String)
    (st : PlanState) (item : SItem) :
    (planChild tgtDrive parseIso target_root filters skip_identicals
        src_rel st item).2 = [] ∨
    (∃ n sf ch, item = .folder n sf ch ∧ is_vault item = false ∧
      (planChild tgtDrive parseIso target_root filters skip_identicals
          src_rel st item).2 = [(joinRel src_rel n, ch)]) := by
  by_cases hv : is_vault item = true
  · left; simp [planChild, hv]
  · have hv' : is_vault item = false := by simpa using hv
    cases item with
    | folder n sf ch =>
        right
        exact ⟨n, sf, ch, rfl, hv', by simp [planChild, hv', sitemName]⟩
    | file n i sz sf lm =>
        left
        rw [planChild_file_snd]

/-- A state property preserved by every `planChild` step is preserved
by a whole directory listing. -/
theorem planItems_state_inv (tgtDrive : String → Option Nat)
    (parseIso : String → Option Int) (target_root : String)
    (filters : Filters) (skip_identicals : Bool) (P : PlanState → Prop)
    (hstep : ∀ src_rel st item, P st →
      P (planChild tgtDrive parseIso target_root filters skip_identicals
          src_rel st item).1) :
    ∀ (items : List SItem) (src_rel : String) (st : PlanState), P st →
      P (planItems tgtDrive parseIso target_root filters skip_identicals
          src_rel st items).1 := by
  intro items
  induction items with
  | nil => intro src_rel st hP; exact hP
  | cons item rest ih =>
      intro src_rel st hP
      simp only [planItems]
      exact ih src_rel _ (hstep src_rel st item hP)

/-- A state property preserved by every `planChild` step is preserved
by the whole traversal. -/
theorem planLoop_state_inv (tgtDrive : String → Option Nat)
    (parseIso : String → Option Int) (target_root : String)
    (filters : Filters) (skip_identicals : Bool) (P : PlanState → Prop)
    (hstep : ∀ src_rel st item, P st →
      P (planChild tgtDrive parseIso target_root filters skip_identicals
          src_rel st item).1) :
    ∀ (st : PlanState) (queue : List (String × List SItem)), P st →
      P (planLoop tgtDrive parseIso target_root filters skip_identicals
          st queue) := by
  intro st queue hP
  exact planLoop_inv tgtDrive parseIso target_root filters skip_identicals
    P (fun _ => True)
    (fun src_rel items st hQ hPst =>
      ⟨planItems_state_inv tgtDrive parseIso target_root filters
        skip_identicals P hstep items src_rel st hPst, fun _ _ => trivial⟩)
    st queue hP (fun _ _ => trivial)

/-- Claim C2, amended.  Every `file` action of the plan carries a target
equal to the configured target root joined with the full
source-relative path (the identity when the root is empty), while every
`folder` action carries a target equal to the target root joined with
only the base name of the folder. -/
theorem plan_action_target_paths (tgtDrive : String → Option Nat)
    (parseIso : String → Option Int) (source_root target_root : String)
    (rootItems : List SItem) (filters : Filters) (skip_identicals : Bool) :
    ∀ a ∈ (plan_with_diff tgtDrive parseIso source_root target_root
        rootItems filters skip_identicals).1,
      (∀ s t, a = PAction.folder s t →
        t = rebase target_root (baseName s)) ∧
      (∀ s t sz id status, a = PAction.file s t sz id status →
        t = rebase target_root s) := by
  have key := planLoop_state_inv tgtDrive parseIso target_root filters
    skip_identicals
    (P := fun st => ∀ a ∈ st.plan,
      (∀ s t, a = PAction.folder s t →
        t = rebase target_root (baseName s)) ∧
      (∀ s t sz id status, a = PAction.file s t sz id status →
        t = rebase target_root s))
    (by
      intro src_rel st item hP
      rcases planChild_plan_cases tgtDrive parseIso target_root filters
          skip_identicals src_rel st item with
        h | ⟨_, h⟩ | ⟨_, h⟩ | ⟨_, sz, id, status, _, h⟩ <;> rw [h]
      · exact hP
      all_goals
        intro a ha
        rcases List.mem_append.mp ha with ha | ha
      · exact hP a ha
      · simp only [List.mem_singleton] at ha
        subst ha
        exact ⟨fun s t h => (nomatch h), fun s t sz id status h => nomatch h⟩
      · exact hP a ha
      · simp only [List.mem_singleton] at ha
        subst ha
        refine ⟨fun s t h => ?_, fun s t sz id status h => nomatch h⟩
        cases h
        rfl
      · exact hP a ha
      · simp only [List.mem_singleton] at ha
        subst ha
        refine ⟨fun s t h => (nomatch h), fun s t sz' id' status' h => ?_⟩
        cases h
        rfl)
    ⟨[], initStats, []⟩ [(source_root, rootItems)] (by simp)
  exact key

/-- Witness for the amended C2: the file and the nested folder of a
concrete plan both satisfy the target-path characterization. -/
theorem plan_action_target_paths_witness :
    (∀ s t, PAction.folder "a/b" "b" = PAction.folder s t →
      t = rebase "" (baseName s)) ∧
    (∀ s t sz id status,
      PAction.folder "a/b" "b" = PAction.file s t sz id status →
      t = rebase "" s) :=
  plan_action_target_paths (fun _ => none) (fun _ => none) "" ""
    [.folder "a" none [.folder "b" none []]] ⟨none, none, none, none⟩ false
    (PAction.folder "a/b" "b") (by
      simp +decide [plan_with_diff, planLoop, planItems, planChild, is_vault,
        sitemName, sitemSpecial, joinRel, baseName, rebase, initStats,
        strLower, splitSlash, splitSlashGo])

theorem countStatus_append (status : String) (l1 l2 : List PAction) :
    countStatus status (l1 ++ l2) =
      countStatus status l1 + countStatus status l2 := by
  induction l1 with
  | nil => simp [countStatus]
  | cons a rest ih =>
      cases a <;> simp [countStatus, ih] <;> omega

theorem countFiles_append (l1 l2 : List PAction) :
    countFiles (l1 ++ l2) = countFiles l1 + countFiles l2 := by
  induction l1 with
  | nil => simp [countFiles]
  | cons a rest ih =>
      cases a <;> simp [countFiles, ih] <;> omega

theorem sumFileSizes_append (l1 l2 : List PAction) :
    sumFileSizes (l1 ++ l2) = sumFileSizes l1 + sumFileSizes l2 := by
  induction l1 with
  | nil => simp [sumFileSizes]
  | cons a rest ih =>
      cases a <;> simp [sumFileSizes, ih] <;> omega

/-- The statistics/plan relationship maintained by every `planChild`
step: `skip_existing_same` mirrors the `exists_same` entries only when
identical-skip was requested, `not_present` and `existing_diff` mirror
their classifications unconditionally, and `files`/`bytes` count every
file entry including the `exists_same` ones. -/
theorem planChild_stats_inv (tgtDrive : String → Option Nat)
    (parseIso : String → Option Int) (target_root : String)
    (filters : Filters) (skip_identicals : Bool) (src_rel : String)
    (st : PlanState) (item : SItem)
    (h : st.stats.skip_existing_same =
        (if skip_identicals then countStatus "exists_same" st.plan
          else 0) ∧
      st.stats.not_present = countStatus "not_present" st.plan ∧
      st.stats.existing_diff = countStatus "exists_different" st.plan ∧
      st.stats.files = countFiles st.plan ∧
      st.stats.bytes = sumFileSizes st.plan) :
    ((planChild tgtDrive parseIso target_root filters skip_identicals
        src_rel st item).1.stats.skip_existing_same =
      (if skip_identicals then countStatus "exists_same"
        (planChild tgtDrive parseIso target_root filters skip_identicals
          src_rel st item).1.plan else 0)) ∧
    ((planChild tgtDrive parseIso target_root filters skip_identicals
        src_rel st item).1.stats.not_present =
      countStatus "not_present"
        (planChild tgtDrive parseIso target_root filters skip_identicals
          src_rel st item).1.plan) ∧
    ((planChild tgtDrive parseIso target_root filters skip_identicals
        src_rel st item).1.stats.existing_diff =
      countStatus "exists_different"
        (planChild tgtDrive parseIso target_root filters skip_identicals
          src_rel st item).1.plan) ∧
    ((planChild tgtDrive parseIso target_root filters skip_identicals
        src_rel st item).1.stats.files =
      countFiles (planChild tgtDrive parseIso target_root filters
        skip_identicals src_rel st item).1.plan) ∧
    ((planChild tgtDrive parseIso target_root filters skip_identicals
        src_rel st item).1.stats.bytes =
      sumFileSizes (planChild tgtDrive parseIso target_root filters
        skip_identicals src_rel st item).1.plan) := by
  obtain ⟨h1, h2, h3, h4, h5⟩ := h
  by_cases hv : is_vault item = true
  · simp [planChild, hv, countStatus_append, countFiles_append,
      sumFileSizes_append, countStatus, countFiles, sumFileSizes,
      h1, h2, h3, h4, h5]
  · have hv' : is_vault item = false := by simpa using hv
    cases item with
    | folder n sf ch =>
        simp [planChild, hv', countStatus_append, countFiles_append,
          sumFileSizes_append, countStatus, countFiles, sumFileSizes,
          h1, h2, h3, h4, h5]
    | file n i sz sf lm =>
        by_cases hf : apply_filters parseIso (.file n i sz sf lm) filters =
          false
        · simp [planChild, hv', hf, h1, h2, h3, h4, h5]
        · rcases hlk : (target_lookup tgtDrive
              (rebase target_root (joinRel src_rel
                (sitemName (.file n i sz sf lm)))) st.tcache).1
            with _ | ts
          · simp +decide [planChild, hv', hf, hlk, countStatus_append,
              countFiles_append, sumFileSizes_append, countStatus,
              countFiles, sumFileSizes, h1, h2, h3, h4, h5]
          · by_cases hts : ts = sz
            · cases hsk : skip_identicals <;>
                simp +decide [planChild, hv', hf, hlk, hts, hsk,
                  countStatus_append, countFiles_append,
                  sumFileSizes_append, countStatus, countFiles,
                  sumFileSizes, h1, h2, h3, h4, h5]
            · simp +decide [planChild, hv', hf, hlk, hts,
                countStatus_append, countFiles_append, sumFileSizes_append,
                countStatus, countFiles, sumFileSizes,
                h1, h2, h3, h4, h5]

/-- Claim C8.  The statistics returned by `plan_with_diff` satisfy:
`skip_existing_same` equals the number of `exists_same` file entries
when identical-skip was requested and is zero otherwise;
`not_present` and `existing_diff` equal the number of file entries with
those classifications unconditionally; and `files`/`bytes` count every
file entry of the plan — the `exists_same` ones included — and the sum
of their sizes. -/
theorem plan_stats_match_plan (tgtDrive : String → Option Nat)
    (parseIso : String → Option Int) (source_root target_root : String)
    (rootItems : List SItem) (filters : Filters) (skip_identicals : Bool) :
    (plan_with_diff tgtDrive parseIso source_root target_root rootItems
        filters skip_identicals).2.skip_existing_same =
      (if skip_identicals then countStatus "exists_same"
        (plan_with_diff tgtDrive parseIso source_root target_root rootItems
          filters skip_identicals).1 else 0) ∧
    (plan_with_diff tgtDrive parseIso source_root target_root rootItems
        filters skip_identicals).2.not_present =
      countStatus "not_present"
        (plan_with_diff tgtDrive parseIso source_root target_root rootItems
          filters skip_identicals).1 ∧
    (plan_with_diff tgtDrive parseIso source_root target_root rootItems
        filters skip_identicals).2.existing_diff =
      countStatus "exists_different"
        (plan_with_diff tgtDrive parseIso source_root target_root rootItems
          filters skip_identicals).1 ∧
    (plan_with_diff tgtDrive parseIso source_root target_root rootItems
        filters skip_identicals).2.files =
      countFiles (plan_with_diff tgtDrive parseIso source_root target_root
        rootItems filters skip_identicals).1 ∧
    (plan_with_diff tgtDrive parseIso source_root target_root rootItems
        filters skip_identicals).2.bytes =
      sumFileSizes (plan_with_diff tgtDrive parseIso source_root
        target_root rootItems filters skip_identicals).1 :=
  planLoop_state_inv tgtDrive parseIso target_root filters skip_identicals
    (P := fun st =>
      st.stats.skip_existing_same =
        (if skip_identicals then countStatus "exists_same" st.plan
          else 0) ∧
      st.stats.not_present = countStatus "not_present" st.plan ∧
      st.stats.existing_diff = countStatus "exists_different" st.plan ∧
      st.stats.files = countFiles st.plan ∧
      st.stats.bytes = sumFileSizes st.plan)
    (fun src_rel st item h =>
      planChild_stats_inv tgtDrive parseIso target_root filters
        skip_identicals src_rel st item h)
    ⟨[], initStats, []⟩ [(source_root, rootItems)]
    (by simp [initStats, countStatus, countFiles, sumFileSizes])

theorem sitemSize_pos (it : SItem) : 1 ≤ sitemSize it := by
  cases it <;> simp [sitemSize]

/-- A non-vault child of a listed directory contributes its path. -/
theorem mem_cleanPathsList_of_child (base : String) (l : List SItem)
    (it : SItem) (hit : it ∈ l) (hv : is_vault it = false) :
    joinRel base (sitemName it) ∈ cleanPathsList base l := by
  induction l with
  | nil => cases hit
  | cons hd tl ih =>
      rcases List.mem_cons.mp hit with rfl | hit
      · apply List.mem_append_left
        cases it with
        | file n i sz sf lm => simp [cleanPathsItem, hv, sitemName]
        | folder n sf ch => simp [cleanPathsItem, hv, sitemName]
      · exact List.mem_append_right _ (ih hit)

/-- A non-vault subfolder of a listed directory is itself listed. -/
theorem mem_cleanDirsList_of_child (base : String) (l : List SItem)
    (n : String) (sf : Option String) (ch : List SItem)
    (hit : SItem.folder n sf ch ∈ l)
    (hv : is_vault (.folder n sf ch) = false) :
    (joinRel base n, ch) ∈ cleanDirsList base l := by
  induction l with
  | nil => cases hit
  | cons hd tl ih =>
      rcases List.mem_cons.mp hit with rfl | hit
      · apply List.mem_append_left
        simp [cleanDirsItem, hv]
      · exact List.mem_append_right _ (ih hit)

/-- Descending through the vault-free directory listing: the non-vault
children of a reachable directory have reachable paths, and its
non-vault subfolders are reachable directories. -/
theorem cleanDirsList_descend : ∀ (N : Nat) (base : String)
    (l : List SItem), slistSize l ≤ N →
    ∀ p its, (p, its) ∈ cleanDirsList base l →
    ∀ it ∈ its, is_vault it = false →
      joinRel p (sitemName it) ∈ cleanPathsList base l ∧
      ∀ n sf ch, it = .folder n sf ch →
        (joinRel p n, ch) ∈ cleanDirsList base l := by
  intro N
  induction N with
  | zero =>
      intro base l hle p its hmem
      cases l with
      | nil => cases hmem
      | cons hd tl =>
          exfalso
          have := sitemSize_pos hd
          simp [slistSize] at hle
          omega
  | succ N ih =>
      intro base l hle p its hmem
      cases l with
      | nil => cases hmem
      | cons hd tl =>
          rw [show cleanDirsList base (hd :: tl) =
            cleanDirsItem base hd ++ cleanDirsList base tl from rfl] at hmem
          rcases List.mem_append.mp hmem with hmem | hmem
          · cases hd with
            | file n0 i0 sz0 sf0 lm0 =>
                exfalso
                by_cases hv : is_vault (SItem.file n0 i0 sz0 sf0 lm0) = true
                · simp [cleanDirsItem, hv] at hmem
                · simp [cleanDirsItem, show is_vault
                    (SItem.file n0 i0 sz0 sf0 lm0) = false by simpa using hv]
                    at hmem
            | folder n0 sf0 ch0 =>
                by_cases hv : is_vault (SItem.folder n0 sf0 ch0) = true
                · exfalso; simp [cleanDirsItem, hv] at hmem
                · have hv' : is_vault (SItem.folder n0 sf0 ch0) = false := by
                    simpa using hv
                  rw [show cleanDirsItem base (.folder n0 sf0 ch0) =
                    if is_vault (SItem.folder n0 sf0 ch0) then []
                    else (joinRel base n0, ch0) ::
                      cleanDirsList (joinRel base n0) ch0 from rfl,
                    hv', if_neg (by simp)] at hmem
                  have hlift1 : ∀ x,
                      x ∈ cleanPathsList (joinRel base n0) ch0 →
                      x ∈ cleanPathsList base
                        (SItem.folder n0 sf0 ch0 :: tl) := by
                    intro x hx
                    apply List.mem_append_left
                    rw [show cleanPathsItem base (.folder n0 sf0 ch0) =
                      if is_vault (SItem.folder n0 sf0 ch0) then []
                      else joinRel base n0 ::
                        cleanPathsList (joinRel base n0) ch0 from rfl,
                      hv', if_neg (by simp)]
                    exact List.mem_cons_of_mem _ hx
                  have hlift2 : ∀ x,
                      x ∈ cleanDirsList (joinRel base n0) ch0 →
                      x ∈ cleanDirsList base
                        (SItem.folder n0 sf0 ch0 :: tl) := by
                    intro x hx
                    apply List.mem_append_left
                    rw [show cleanDirsItem base (.folder n0 sf0 ch0) =
                      if is_vault (SItem.folder n0 sf0 ch0) then []
                      else (joinRel base n0, ch0) ::
                        cleanDirsList (joinRel base n0) ch0 from rfl,
                      hv', if_neg (by simp)]
                    exact List.mem_cons_of_mem _ hx
                  rcases List.mem_cons.mp hmem with heq | hmem
                  · injection heq with hp hits
                    subst hp
                    subst hits
                    intro it hit hitv
                    refine ⟨hlift1 _
                      (mem_cleanPathsList_of_child _ _ _ hit hitv), ?_⟩
                    intro n sf ch heq2
                    subst heq2
                    exact hlift2 _
                      (mem_cleanDirsList_of_child _ _ _ _ _ hit hitv)
                  · have hch : slistSize ch0 ≤ N := by
                      simp [slistSize, sitemSize] at hle
                      omega
                    intro it hit hitv
                    obtain ⟨r1, r2⟩ :=
                      ih (joinRel base n0) ch0 hch p its hmem it hit hitv
                    exact ⟨hlift1 _ r1, fun n sf ch heq =>
                      hlift2 _ (r2 n sf ch heq)⟩
          · have htl : slistSize tl ≤ N := by
              have := sitemSize_pos hd
              simp [slistSize] at hle
              omega
            intro it hit hitv
            obtain ⟨r1, r2⟩ := ih base tl htl p its hmem it hit hitv
            refine ⟨List.mem_append_right _ r1, fun n sf ch heq =>
              List.mem_append_right _ (r2 n sf ch heq)⟩

/-- Root-level form of the descent property: from any reachable
directory, non-vault children have reachable paths and non-vault
subfolders are reachable directories. -/
theorem cleanDirs_descend (source_root : String) (rootItems : List SItem)
    (p : String) (its : List SItem)
    (hmem : (p, its) ∈ cleanDirs source_root rootItems) :
    ∀ it ∈ its, is_vault it = false →
      joinRel p (sitemName it) ∈ cleanPathsList source_root rootItems ∧
      ∀ n sf ch, it = .folder n sf ch →
        (joinRel p n, ch) ∈ cleanDirs source_root rootItems := by
  rcases List.mem_cons.mp hmem with heq | hmem
  · injection heq with hp hits
    subst hp
    subst hits
    intro it hit hitv
    refine ⟨mem_cleanPathsList_of_child _ _ _ hit hitv, ?_⟩
    intro n sf ch heq2
    subst heq2
    exact List.mem_cons_of_mem _
      (mem_cleanDirsList_of_child _ _ _ _ _ hit hitv)
  · intro it hit hitv
    obtain ⟨r1, r2⟩ := cleanDirsList_descend (slistSize rootItems)
      source_root rootItems (Nat.le_refl _) p its hmem it hit hitv
    exact ⟨r1, fun n sf ch heq2 =>
      List.mem_cons_of_mem _ (r2 n sf ch heq2)⟩

/-- Processing one reachable directory keeps every non-`skip_vault`
plan entry on a vault-free path and pushes only reachable
directories. -/
theorem planItems_vault_inv (tgtDrive : String → Option Nat)
    (parseIso : String → Option Int) (source_root target_root : String)
    (rootItems : List SItem) (filters : Filters) (skip_identicals : Bool) :
    ∀ (items : List SItem) (src_rel : String) (st : PlanState),
      (∀ it ∈ items, is_vault it = false →
        joinRel src_rel (sitemName it) ∈
          cleanPathsList source_root rootItems ∧
        ∀ n sf ch, it = .folder n sf ch →
          (joinRel src_rel n, ch) ∈ cleanDirs source_root rootItems) →
      (∀ a ∈ st.plan, isSkipVault a = false →
        planSource a ∈ cleanPathsList source_root rootItems) →
      (∀ a ∈ (planItems tgtDrive parseIso target_root filters
          skip_identicals src_rel st items).1.plan,
        isSkipVault a = false →
          planSource a ∈ cleanPathsList source_root rootItems) ∧
      (∀ qe ∈ (planItems tgtDrive parseIso target_root filters
          skip_identicals src_rel st items).2,
        qe ∈ cleanDirs source_root rootItems) := by
  intro items
  induction items with
  | nil =>
      intro src_rel st _ hP
      exact ⟨hP, by intro qe hqe; cases hqe⟩
  | cons item rest ih =>
      intro src_rel st hfacts hP
      simp only [planItems]
      have hfact := hfacts item (List.mem_cons_self _ _)
      have hrest : ∀ it ∈ rest, is_vault it = false →
          joinRel src_rel (sitemName it) ∈
            cleanPathsList source_root rootItems ∧
          ∀ n sf ch, it = .folder n sf ch →
            (joinRel src_rel n, ch) ∈ cleanDirs source_root rootItems :=
        fun it hit => hfacts it (List.mem_cons_of_mem _ hit)
      have hP' : ∀ a ∈ (planChild tgtDrive parseIso target_root filters
          skip_identicals src_rel st item).1.plan,
          isSkipVault a = false →
            planSource a ∈ cleanPathsList source_root rootItems := by
        rcases planChild_plan_cases tgtDrive parseIso target_root filters
            skip_identicals src_rel st item with
          h | ⟨hv, h⟩ | ⟨hv, h⟩ | ⟨hv, sz, id, status, _, h⟩ <;> rw [h]
        · exact hP
        all_goals
          intro a ha
          rcases List.mem_append.mp ha with ha | ha
        · exact hP a ha
        · simp only [List.mem_singleton] at ha
          subst ha
          intro hsv
          cases hsv
        · exact hP a ha
        · simp only [List.mem_singleton] at ha
          subst ha
          intro _
          exact (hfact hv).1
        · exact hP a ha
        · simp only [List.mem_singleton] at ha
          subst ha
          intro _
          exact (hfact hv).1
      have hQ' : ∀ qe ∈ (planChild tgtDrive parseIso target_root filters
          skip_identicals src_rel st item).2,
          qe ∈ cleanDirs source_root rootItems := by
        rcases planChild_queue_cases tgtDrive parseIso target_root filters
            skip_identicals src_rel st item with
          h | ⟨n, sf, ch, heq, hv, h⟩ <;> rw [h]
        · intro qe hqe; cases hqe
        · intro qe hqe
          simp only [List.mem_singleton] at hqe
          subst hqe
          exact (hfact hv).2 n sf ch heq
      obtain ⟨hr1, hr2⟩ := ih src_rel
        (planChild tgtDrive parseIso target_root filters skip_identicals
          src_rel st item).1 hrest hP'
      refine ⟨hr1, ?_⟩
      intro qe hqe
      rcases List.mem_append.mp hqe with hqe | hqe
      · exact hQ' qe hqe
      · exact hr2 qe hqe

/-- Claim C6.  Every `folder` and `file` action of the plan has a source
path reachable from the root listing without passing through any vault
item: vault markers contribute only `skip_vault` entries and are never
listed, so neither they nor anything nested beneath them ever becomes a
`CreateFolder` or `TransferFile` action. -/
theorem plan_actions_avoid_vaults (tgtDrive : String → Option Nat)
    (parseIso : String → Option Int) (source_root target_root : String)
    (rootItems : List SItem) (filters : Filters) (skip_identicals : Bool) :
    ∀ a ∈ (plan_with_diff tgtDrive parseIso source_root target_root
        rootItems filters skip_identicals).1,
      isSkipVault a = false →
        planSource a ∈ cleanPathsList source_root rootItems := by
  exact planLoop_inv tgtDrive parseIso target_root filters skip_identicals
    (P := fun st => ∀ a ∈ st.plan, isSkipVault a = false →
      planSource a ∈ cleanPathsList source_root rootItems)
    (Q := fun qe => qe ∈ cleanDirs source_root rootItems)
    (fun src_rel items st hQ hP =>
      planItems_vault_inv tgtDrive parseIso source_root target_root
        rootItems filters skip_identicals items src_rel st
        (cleanDirs_descend source_root rootItems src_rel items hQ) hP)
    ⟨[], initStats, []⟩ [(source_root, rootItems)] (by simp)
    (by
      intro qe hqe
      simp only [List.mem_singleton] at hqe
      subst hqe
      exact List.mem_cons_self _ _)

/-- Witness for C6: in a tree holding a vault beside a plain file, the
planned transfer of `docs/a.txt` lies on a vault-free path. -/
theorem plan_actions_avoid_vaults_witness :
    PAction.file "docs/a.txt" "docs/a.txt" 10 "i1" "not_present" ∈
      (plan_with_diff (fun _ => none) (fun _ => none) "" ""
        [.folder "docs" none [.file "a.txt" "i1" 10 none none,
          .folder "Vault" none [.file "secret.txt" "i2" 5 none none]]]
        ⟨none, none, none, none⟩ false).1 ∧
    planSource (PAction.file "docs/a.txt" "docs/a.txt" 10 "i1"
        "not_present") ∈
      cleanPathsList ""
        [.folder "docs" none [.file "a.txt" "i1" 10 none none,
          .folder "Vault" none [.file "secret.txt" "i2" 5 none none]]] := by
  have hmem : PAction.file "docs/a.txt" "docs/a.txt" 10 "i1"
      "not_present" ∈
      (plan_with_diff (fun _ => none) (fun _ => none) "" ""
        [.folder "docs" none [.file "a.txt" "i1" 10 none none,
          .folder "Vault" none [.file "secret.txt" "i2" 5 none none]]]
        ⟨none, none, none, none⟩ false).1 := by
    simp +decide [plan_with_diff, planLoop, planItems, planChild, is_vault,
      sitemName, sitemSpecial, joinRel, baseName, rebase, initStats,
      strLower, splitSlash, splitSlashGo, apply_filters, target_lookup]
  exact ⟨hmem, plan_actions_avoid_vaults (fun _ => none) (fun _ => none)
    "" ""
    [.folder "docs" none [.file "a.txt" "i1" 10 none none,
      .folder "Vault" none [.file "secret.txt" "i2" 5 none none]]]
    ⟨none, none, none, none⟩ false _ hmem rfl⟩

/-- Claim C7.  `apply_filters` passes every folder unconditionally, and
passes a file exactly when (i) the extension set is absent or empty, or
some configured extension is a case-insensitive suffix of the name;
(ii) whenever a minimum modification time is configured and the present
timestamp parses, the parsed time is not earlier than that minimum —
absence or parse failure passing; and (iii) the size meets the
inclusive lower and upper byte bounds, an absent bound being
unconstrained.  The only assumption on the abstracted timestamp parser
is that the empty string does not parse (as with
`datetime.fromisoformat`). -/
theorem apply_filters_characterization (parseIso : String → Option Int)
    (filters : Filters) (hps : parseIso "" = none) :
    (∀ name sf ch,
      apply_filters parseIso (.folder name sf ch) filters = true) ∧
    (∀ name id size sf lm,
      apply_filters parseIso (.file name id size sf lm) filters = true ↔
        (filters.exts = none ∨ filters.exts = some [] ∨
          ∃ es, filters.exts = some es ∧ ∃ e ∈ es,
            strEndsWith (strLower name) (strLower e) = true) ∧
        (∀ d s t, filters.modified_after = some d → lm = some s →
          parseIso s = some t → d ≤ t) ∧
        (∀ m, filters.min_bytes = some m → m ≤ size) ∧
        (∀ m, filters.max_bytes = some m → size ≤ m)) := by
  constructor
  · intro name sf ch
    rfl
  · intro name id size sf lm
    have hext : (match filters.exts with
        | none => true
        | some es => es.isEmpty ||
            es.any (fun e => strEndsWith (strLower name) (strLower e))) =
          true ↔
        (filters.exts = none ∨ filters.exts = some [] ∨
          ∃ es, filters.exts = some es ∧ ∃ e ∈ es,
            strEndsWith (strLower name) (strLower e) = true) := by
      rcases filters.exts with _ | es
      · simp
      · simp [List.isEmpty_iff, List.any_eq_true]
    have hdate : (match filters.modified_after, lm with
        | some minDt, some s =>
            if s = "" then true
            else match parseIso s with
              | some dt => decide (minDt ≤ dt)
              | none => true
        | _, _ => true) = true ↔
        (∀ d s t, filters.modified_after = some d → lm = some s →
          parseIso s = some t → d ≤ t) := by
      rcases filters.modified_after with _ | minDt
      · simp
      · rcases lm with _ | s
        · simp
        · by_cases hs : s = ""
          · subst hs
            simp [hps]
            intro d s' t hd hs' ht
            subst hd
            subst hs'
            rw [hps] at ht
            cases ht
          · rcases hp : parseIso s with _ | dt
            · simp [hs, hp]
              intro d s' t hd hs' ht
              subst hd
              subst hs'
              rw [hp] at ht
              cases ht
            · simp [hs, hp]
              constructor
              · intro hle d s' t hd hs' ht
                cases hd
                cases hs'
                rw [hp] at ht
                cases ht
                exact hle
              · intro h
                exact h minDt s dt rfl rfl hp
    have hmin : (match filters.min_bytes with
        | some m => decide (m ≤ size)
        | none => true) = true ↔
        (∀ m, filters.min_bytes = some m → m ≤ size) := by
      rcases filters.min_bytes with _ | m
      · simp
      · simp
    have hmax : (match filters.max_bytes with
        | some m => decide (size ≤ m)
        | none => true) = true ↔
        (∀ m, filters.max_bytes = some m → size ≤ m) := by
      rcases filters.max_bytes with _ | m
      · simp
      · simp
    simp only [apply_filters, Bool.and_eq_true]
    rw [hext, hdate, hmin, hmax]
    tauto

/-- Witness for C7 at a concrete parser, filter set and file. -/
theorem apply_filters_characterization_witness :
    apply_filters (fun s => if s = "" then none else some 5)
        (.file "Report.TXT" "id1" 50 none (some "2024-01-01"))
        ⟨some [".txt"], some 3, some 10, some 100⟩ = true ↔
      ((some [".txt"] : Option (List String)) = none ∨
        (some [".txt"] : Option (List String)) = some [] ∨
        ∃ es, (some [".txt"] : Option (List String)) = some es ∧
          ∃ e ∈ es, strEndsWith (strLower "Report.TXT") (strLower e) =
            true) ∧
      (∀ d s t, (some 3 : Option Int) = some d →
        (some "2024-01-01" : Option String) = some s →
        (fun s => if s = "" then none else some 5) s = some t → d ≤ t) ∧
      (∀ m, (some 10 : Option Nat) = some m → m ≤ 50) ∧
      (∀ m, (some 100 : Option Nat) = some m → 50 ≤ m) :=
  (apply_filters_characterization (fun s => if s = "" then none else some 5)
    ⟨some [".txt"], some 3, some 10, some 100⟩ (by simp)).2
    "Report.TXT" "id1" 50 none (some "2024-01-01")

/-- Claim C10.  A file with no `lastModifiedDateTime` value at all passes
or fails `apply_filters` exactly as it would with no modified-after
filter configured: absence of the timestamp is fail-open, so such a
file can never be excluded by the date filter alone. -/
theorem apply_filters_missing_timestamp_fail_open
    (parseIso : String → Option Int) (filters : Filters) (d : Int)
    (h : filters.modified_after = some d) (name id : String) (size : Nat)
    (sf : Option String) :
    apply_filters parseIso (.file name id size sf none) filters =
      apply_filters parseIso (.file name id size sf none)
        { filters with modified_after := none } := by
  simp [apply_filters, h]

/-- Witness for C10: a configured date filter, a file with an absent
timestamp. -/
theorem apply_filters_missing_timestamp_fail_open_witness :
    apply_filters (fun _ => none) (.file "a.txt" "id1" 5 none none)
        ⟨none, some 7, none, none⟩ =
      apply_filters (fun _ => none) (.file "a.txt" "id1" 5 none none)
        ⟨none, none, none, none⟩ :=
  apply_filters_missing_timestamp_fail_open (fun _ => none)
    ⟨none, some 7, none, none⟩ 7 rfl "a.txt" "id1" 5 none

end OneDriveCLI
